import Mathlib

/-!
Shallow embedding of the load-generation engine of `load_test.py`
(API-Stress-Lab) and proofs about it.

Python floats are modelled as rationals (`ℚ`), Python lists as Lean lists.
Fallible operations (list indexing, which can raise `IndexError`) are
modelled in `Option`: `none` is an uncaught exception.
-/

namespace LoadTest

/-- Python's `int(q)` on a float/rational: truncation toward zero. -/
def pyInt (q : ℚ) : ℤ :=
  if 0 ≤ q then ⌊q⌋ else -⌊-q⌋

/-- Python list indexing `l[i]`: a nonnegative index must be `< len`, a
negative index `i` means `len + i` and must satisfy `-len ≤ i`; anything
else raises `IndexError` (modelled as `none`). -/
def pyGet (l : List ℚ) (i : ℤ) : Option ℚ :=
  if 0 ≤ i then l.get? i.toNat
  else if -i ≤ (l.length : ℤ) then l.get? (l.length - (-i).toNat)
  else none

/-- `load_test.py`, lines 10-21 (`percentile`).  `sorted` is ascending
sorting (for rationals any correct ascending sort yields the same list, so
insertion sort is a faithful model of Python's `sorted`); `int(k)` is
`pyInt`; each indexing goes through `pyGet`, so `none` models an uncaught
`IndexError`. -/
def percentile (latencies : List ℚ) (p : ℚ) : Option ℚ :=
  if latencies = [] then some 0
  else
    let latencies_sorted := latencies.insertionSort (· ≤ ·)
    let k : ℚ := ((latencies_sorted.length : ℚ) - 1) * (p / 100)
    let f : ℤ := pyInt k
    let c : ℤ := min (f + 1) ((latencies_sorted.length : ℤ) - 1)
    if f = c then pyGet latencies_sorted f
    else
      (pyGet latencies_sorted f).bind fun sf =>
      (pyGet latencies_sorted c).bind fun sc =>
      some (sf * ((c : ℚ) - k) + sc * (k - (f : ℚ)))

/-- The spec's own description of `percentile` (§4.3), written with
mathematical floor and total indexing; total because for `p ∈ [0,100]`
all indices are in range.  Used as the comparison point for C1. -/
def percentileSpec (latencies : List ℚ) (p : ℚ) : ℚ :=
  if latencies = [] then 0
  else
    let sorted := latencies.insertionSort (· ≤ ·)
    let n := sorted.length
    let k : ℚ := ((n : ℚ) - 1) * (p / 100)
    let f : ℤ := ⌊k⌋
    let c : ℤ := min (f + 1) ((n : ℤ) - 1)
    if f = c then sorted.getD f.toNat 0
    else sorted.getD f.toNat 0 * ((c : ℚ) - k) + sorted.getD c.toNat 0 * (k - (f : ℚ))

/-! ## Outcomes and aggregation -/

/-- One request's recorded result, the tuple
`(elapsed_ms, status_code, is_transport_error)` built in `worker`
(`load_test.py` lines 36-47) and appended at line 49. -/
structure Outcome where
  latencyMs : ℚ
  statusCode : Option ℕ
  transportError : Bool
deriving DecidableEq

/-- Python `r[1] is not None and r[1] < 400` over an outcome tuple. -/
def httpSuccess (r : Outcome) : Bool :=
  match r.statusCode with
  | some s => decide (s < 400)
  | none => false

/-- Python `r[1] is not None and r[1] >= 400` over an outcome tuple. -/
def httpFailure (r : Outcome) : Bool :=
  match r.statusCode with
  | some s => decide (400 ≤ s)
  | none => false

/-- The summary dict built by `run_load_test` (`load_test.py` lines
151-168), with the nested `latency_ms` dict flattened into `latency_` /
`p` fields and the `Counter` histogram modelled as the function sending a
status code to its count. -/
structure Metrics where
  total_time_seconds : ℚ
  total_requests : ℕ
  successful_requests : ℕ
  failed_requests : ℕ
  transport_errors : ℕ
  requests_per_second : ℚ
  latency_avg : ℚ
  latency_min : ℚ
  latency_max : ℚ
  p50 : Option ℚ
  p90 : Option ℚ
  p95 : Option ℚ
  p99 : Option ℚ
  status_codes : ℕ → ℕ

/-- `load_test.py` lines 122-168: folding the completed outcome list and
the measured wall-clock duration into the summary (the code after
`asyncio.gather`).  `mean`/`min`/`max` are guarded by Python's emptiness
checks, the rate by `total_time > 0`; the percentile fields keep the
`Option` of `percentile` (a `none` is an uncaught exception). -/
def aggregate (results : List Outcome) (total_time : ℚ) : Metrics :=
  let latencies := results.map (·.latencyMs)
  let http_results := results.filter (fun r => r.statusCode.isSome)
  let transport_errors := results.filter (fun r => r.transportError)
  let successes := http_results.filter httpSuccess
  let http_failures := http_results.filter httpFailure
  { total_time_seconds := total_time
    total_requests := results.length
    successful_requests := successes.length
    failed_requests := http_failures.length + transport_errors.length
    transport_errors := transport_errors.length
    requests_per_second :=
      if 0 < total_time then (results.length : ℚ) / total_time else 0
    latency_avg := if latencies = [] then 0 else latencies.sum / (latencies.length : ℚ)
    latency_min := latencies.min?.getD 0
    latency_max := latencies.max?.getD 0
    p50 := percentile latencies 50
    p90 := percentile latencies 90
    p95 := percentile latencies 95
    p99 := percentile latencies 99
    status_codes := fun code => http_results.countP (fun r => r.statusCode == some code) }

/-- Scenario C of the spec: 5 requests return 200, 3 return 500, 2 time
out (all with some measured latency, here 5 ms). -/
def scenarioC : List Outcome :=
  List.replicate 5 ⟨5, some 200, false⟩ ++ List.replicate 3 ⟨5, some 500, false⟩ ++
    List.replicate 2 ⟨5, none, true⟩

/-! ## Per-completion processing (`worker`, lines 49-85)

In `asyncio` the code from the `results.append` at line 49 up to the
`await progress_callback(...)` at line 76 contains no suspension point, so
it runs as one atomic block per completed request; a run is a fold of
these blocks in completion order. -/

/-- A timeseries point dict (`load_test.py` lines 69-74). -/
structure TimeseriesPoint where
  timestamp : ℚ
  completed : ℕ
  avg_latency_ms : ℚ
  errors : ℕ
deriving DecidableEq

/-- A progress-event dict (`load_test.py` lines 77-84; the constant
`"type": "progress"` entry is omitted). -/
structure ProgressEvent where
  completed : ℕ
  total : ℕ
  avg_latency_ms : ℚ
  errors : ℕ
  timestamp : ℚ
deriving DecidableEq

/-- What one request completion contributes: the recorded outcome plus the
two wall-clock reads (`time.time()` at line 67 and at line 83). -/
structure Completion where
  outcome : Outcome
  now : ℚ
  evTime : ℚ
deriving DecidableEq

/-- Python `round(q, 2)`: round to two decimal places, ties to the even
hundredth. -/
def pyRound2 (q : ℚ) : ℚ :=
  (((let n := ⌊q * 100⌋
     let r := q * 100 - n
     if r < 1/2 then n else if 1/2 < r then n + 1
     else if n % 2 = 0 then n else n + 1) : ℤ) : ℚ) / 100

/-- `http_errors_so_far` (lines 56-59): outcomes so far with a status code
present and `≥ 400` (transport errors contribute nothing). -/
def httpErrorsSoFar (results : List Outcome) : ℕ := results.countP httpFailure

/-- `avg_latency` (lines 55, 61-65): mean latency over all outcomes so
far, 0 for an empty list. -/
def avgLatency (results : List Outcome) : ℚ :=
  let latencies_so_far := results.map (·.latencyMs)
  if latencies_so_far = [] then 0
  else latencies_so_far.sum / (latencies_so_far.length : ℚ)

/-- The shared mutable state of one run as the completion blocks see it. -/
structure RunState where
  results : List Outcome
  completed : ℕ
  timeseries : List TimeseriesPoint
  events : List ProgressEvent
deriving DecidableEq

def initialRunState : RunState := ⟨[], 0, [], []⟩

/-- `worker` lines 49-85 after the transport call has returned: append the
outcome, bump the shared `completed` counter, and — only when a progress
callback was supplied — run the sampler decision rule (`if not timeseries
or (now - timeseries[-1]["timestamp"]) >= 0.5`) on the buffer and emit a
progress event. -/
def processCompletion (total_requests : ℕ) (hasCallback : Bool)
    (st : RunState) (c : Completion) : RunState :=
  let results := st.results ++ [c.outcome]
  let completed := st.completed + 1
  if hasCallback then
    let http_errors_so_far := httpErrorsSoFar results
    let avg_latency := avgLatency results
    let timeseries :=
      match st.timeseries.getLast? with
      | none =>
          st.timeseries ++ [⟨c.now, completed, pyRound2 avg_latency, http_errors_so_far⟩]
      | some lastPoint =>
          if 1/2 ≤ c.now - lastPoint.timestamp then
            st.timeseries ++ [⟨c.now, completed, pyRound2 avg_latency, http_errors_so_far⟩]
          else st.timeseries
    let events := st.events ++
      [⟨completed, total_requests, pyRound2 avg_latency, http_errors_so_far, c.evTime⟩]
    ⟨results, completed, timeseries, events⟩
  else ⟨results, completed, st.timeseries, st.events⟩

/-- A completed run seen as the fold of the atomic per-completion blocks
in completion order. -/
def runFold (total_requests : ℕ) (hasCallback : Bool)
    (cs : List Completion) : RunState :=
  cs.foldl (processCompletion total_requests hasCallback) initialRunState

/-- The progress events a run emits, described recursively from the
outcomes and counter already accumulated (the spec side of C8, with the
rounding the source applies). -/
def eventsSpec (t : ℕ) : List Outcome → ℕ → List Completion → List ProgressEvent
  | _, _, [] => []
  | res0, comp0, c :: cs =>
      ⟨comp0 + 1, t, pyRound2 (avgLatency (res0 ++ [c.outcome])),
        httpErrorsSoFar (res0 ++ [c.outcome]), c.evTime⟩ ::
        eventsSpec t (res0 ++ [c.outcome]) (comp0 + 1) cs

/-- The value returned by `run_load_test` (lines 170-173). -/
structure LoadTestResult where
  summary : Metrics
  timeseries : List TimeseriesPoint

/-- `run_load_test` (lines 87-173), determinized by the realized
completion order: the `i`-th completed request's transport result and
clock reads are `transport i method url`.  The function performs no
configuration validation: the arguments go straight to dispatch, and
`concurrency` only sizes the semaphore (modelled by `Dispatch.Step`),
never altering the returned data. -/
def run_load_test (method url : String) (total_requests concurrency : ℕ)
    (hasCallback : Bool) (transport : ℕ → String → String → Completion)
    (total_time : ℚ) : LoadTestResult :=
  let completions := (List.range total_requests).map (fun i => transport i method url)
  let st := runFold total_requests hasCallback completions
  { summary := aggregate st.results total_time, timeseries := st.timeseries }

/-- `run_load_test` with a progress callback that can itself raise: the
`await progress_callback(...)` at line 76 is not guarded by any
`try`/`except`, so the exception escapes `worker`, `asyncio.gather`
re-raises it, and `run_load_test` raises (`.error`) instead of returning a
result.  `cbRaises k` says whether the callback's `k`-th invocation
raises. -/
def run_load_test_raising (total_requests : ℕ) (cbRaises : ℕ → Bool)
    (cs : List Completion) (total_time : ℚ) : Except Unit LoadTestResult :=
  let st := runFold total_requests true cs
  if (List.range st.events.length).any cbRaises then .error ()
  else .ok { summary := aggregate st.results total_time, timeseries := st.timeseries }

def methodFrob : String := "FROB"

def urlDemo : String := "http://demo"

def transportDemo : ℕ → String → String → Completion :=
  fun _ _ _ => ⟨⟨5, some 200, false⟩, 0, 0⟩

def completionsDemo : List Completion :=
  [⟨⟨5, some 200, false⟩, 0, 0⟩, ⟨⟨5, some 200, false⟩, 1, 1⟩]

/-! ## The concurrency model (`run_load_test` lines 94-120, `worker` lines 35-52)

`run_load_test` creates one `worker` coroutine per request and a
`Semaphore(concurrency)`; each worker acquires a permit (`async with
semaphore`), awaits the transport call, then runs its atomic completion
block, possibly awaits the progress callback, and releases the permit when
the `async with` block exits.  We model every interleaving the scheduler
can produce as a small-step transition relation and prove the claimed
invariants over all reachable states. -/

namespace Dispatch

/-- Where one worker coroutine stands: created and blocked on
`async with semaphore`; permit held with the transport call pending;
permit still held with `await progress_callback(...)` pending; finished. -/
inductive Phase where
  | waiting
  | inflight
  | awaitingCb
  | done
deriving DecidableEq

/-- Weight of a phase on the termination measure. -/
def phaseWeight : Phase → ℕ
  | .waiting => 3
  | .inflight => 2
  | .awaitingCb => 1
  | .done => 0

/-- The dispatcher's shared state for `n` workers: each worker's phase,
the semaphore's free-permit count, and the shared `results` list and
`completed` counter of `run_load_test`. -/
structure DState (n : ℕ) where
  phase : Fin n → Phase
  sem : ℕ
  results : List Outcome
  completed : ℕ

/-- `run_load_test` lines 94-101: a semaphore with `concurrency` free
permits, empty shared results, counter 0, every worker created. -/
def init (n concurrency : ℕ) : DState n :=
  ⟨fun _ => .waiting, concurrency, [], 0⟩

/-- One scheduler action.  `o i` is the outcome worker `i` will record —
arbitrary, covering any HTTP status, timeout or connection failure, since
`worker` catches every exception of the transport call.  `acquire` needs a
free permit; `complete` runs the atomic completion block (append outcome,
bump counter) and, when no callback is supplied, already releases the
permit; `callbackReturn` finishes the callback await and releases the
permit. -/
inductive Step (n : ℕ) (o : Fin n → Outcome) (hasCallback : Bool) :
    DState n → DState n → Prop where
  | acquire (s : DState n) (i : Fin n) :
      s.phase i = .waiting → 0 < s.sem →
      Step n o hasCallback s
        ⟨Function.update s.phase i .inflight, s.sem - 1, s.results, s.completed⟩
  | complete (s : DState n) (i : Fin n) :
      s.phase i = .inflight →
      Step n o hasCallback s
        ⟨Function.update s.phase i (if hasCallback then .awaitingCb else .done),
          if hasCallback then s.sem else s.sem + 1,
          s.results ++ [o i], s.completed + 1⟩
  | callbackReturn (s : DState n) (i : Fin n) :
      hasCallback = true → s.phase i = .awaitingCb →
      Step n o hasCallback s
        ⟨Function.update s.phase i .done, s.sem + 1, s.results, s.completed⟩

/-- States some scheduling of the run can actually reach. -/
def Reachable (n : ℕ) (o : Fin n → Outcome) (hasCallback : Bool)
    (concurrency : ℕ) (s : DState n) : Prop :=
  Relation.ReflTransGen (Step n o hasCallback) (init n concurrency) s

/-- Number of workers currently holding a permit. -/
def holding {n : ℕ} (s : DState n) : ℕ :=
  (Finset.univ.filter fun i => s.phase i = .inflight ∨ s.phase i = .awaitingCb).card

/-- Number of transport calls currently in flight. -/
def inflight {n : ℕ} (s : DState n) : ℕ :=
  (Finset.univ.filter fun i => s.phase i = .inflight).card

/-- Number of workers already past their `results.append`. -/
def appended {n : ℕ} (s : DState n) : ℕ :=
  (Finset.univ.filter fun i => s.phase i = .awaitingCb ∨ s.phase i = .done).card

/-- Termination measure: every step strictly decreases it. -/
def tMeasure {n : ℕ} (s : DState n) : ℕ :=
  ∑ i, phaseWeight (s.phase i)

/-- A fixed outcome assignment used by the concrete witnesses. -/
def outcomeDemo : Fin 1 → Outcome := fun _ => ⟨5, some 200, false⟩

end Dispatch

lemma pyInt_of_nonneg {q : ℚ} (h : 0 ≤ q) : pyInt q = ⌊q⌋ := by
  simp [pyInt, h]

lemma pyGet_eq_some (l : List ℚ) (i : ℤ) (h0 : 0 ≤ i) (h1 : i.toNat < l.length) :
    pyGet l i = some (l.getD i.toNat 0) := by
  rw [pyGet, if_pos h0, List.get?_eq_get h1, List.getD_eq_getElem _ _ h1]
  rfl

lemma pyGet_eq_none (l : List ℚ) (i : ℤ) (h0 : 0 ≤ i) (h1 : l.length ≤ i.toNat) :
    pyGet l i = none := by
  rw [pyGet, if_pos h0]
  exact List.get?_eq_none.mpr h1

/-- For `p` in `[0,100]` the fallible source `percentile` never raises
and agrees with the spec formula; shared by the C1 and C3 theorems. -/
lemma percentile_eq_spec : ∀ (l : List ℚ) (p : ℚ), 0 ≤ p → p ≤ 100 →
    percentile l p = some (percentileSpec l p) := by
  intro l p hp0 hp1
  by_cases hl : l = []
  · simp [percentile, percentileSpec, hl]
  · have hlen : (l.insertionSort (· ≤ ·)).length = l.length :=
      List.length_insertionSort _ l
    have hpos : 0 < l.length := List.length_pos.mpr hl
    simp only [percentile, percentileSpec, if_neg hl]
    set s := l.insertionSort (· ≤ ·) with hs
    set k : ℚ := ((s.length : ℚ) - 1) * (p / 100) with hk
    have hk0 : 0 ≤ k := by
      apply mul_nonneg
      · have : (1 : ℚ) ≤ (s.length : ℚ) := by
          exact_mod_cast hlen ▸ hpos
        linarith
      · positivity
    have hk1 : k ≤ (s.length : ℚ) - 1 := by
      have hq : p / 100 ≤ 1 := by linarith [div_le_one (show (0:ℚ) < 100 by norm_num) |>.mpr hp1]
      have hnn : (0 : ℚ) ≤ (s.length : ℚ) - 1 := by
        have : (1 : ℚ) ≤ (s.length : ℚ) := by exact_mod_cast hlen ▸ hpos
        linarith
      calc ((s.length : ℚ) - 1) * (p / 100) ≤ ((s.length : ℚ) - 1) * 1 := by
            exact mul_le_mul_of_nonneg_left hq hnn
        _ = (s.length : ℚ) - 1 := by ring
    rw [pyInt_of_nonneg hk0]
    have hf0 : 0 ≤ ⌊k⌋ := Int.floor_nonneg.mpr hk0
    have hf1 : ⌊k⌋ ≤ (s.length : ℤ) - 1 := by
      have : (⌊k⌋ : ℚ) ≤ (s.length : ℚ) - 1 := le_trans (Int.floor_le k) hk1
      exact_mod_cast this
    have hfn : (⌊k⌋).toNat < s.length := by omega
    have hc0 : 0 ≤ min (⌊k⌋ + 1) ((s.length : ℤ) - 1) := by omega
    have hcn : (min (⌊k⌋ + 1) ((s.length : ℤ) - 1)).toNat < s.length := by omega
    by_cases hfc : ⌊k⌋ = min (⌊k⌋ + 1) ((s.length : ℤ) - 1)
    · rw [if_pos hfc, if_pos hfc, pyGet_eq_some _ _ hf0 hfn]
    · rw [if_neg hfc, if_neg hfc, pyGet_eq_some _ _ hf0 hfn,
        pyGet_eq_some _ _ hc0 hcn]
      rfl


lemma min?_spec {l : List ℚ} {m : ℚ} (h : l.min? = some m) :
    m ∈ l ∧ ∀ b ∈ l, m ≤ b := by
  rw [@List.min?_eq_some_iff ℚ _ _ _ ⟨fun h1 h2 => le_antisymm h1 h2⟩
    le_refl min_choice (fun _ _ _ => le_min_iff)] at h
  exact h

lemma max?_spec {l : List ℚ} {m : ℚ} (h : l.max? = some m) :
    m ∈ l ∧ ∀ b ∈ l, b ≤ m := by
  rw [@List.max?_eq_some_iff ℚ _ _ _ ⟨fun h1 h2 => le_antisymm h1 h2⟩
    le_refl max_choice (fun _ _ _ => max_le_iff)] at h
  exact h

lemma min?_of_ne_nil {l : List ℚ} (h : l ≠ []) : ∃ m, l.min? = some m := by
  cases l with
  | nil => exact absurd rfl h
  | cons a t => exact ⟨_, List.min?_cons⟩

lemma max?_of_ne_nil {l : List ℚ} (h : l ≠ []) : ∃ m, l.max? = some m := by
  cases l with
  | nil => exact absurd rfl h
  | cons a t => exact ⟨_, List.max?_cons⟩

lemma httpSuccess_and_isSome (r : Outcome) :
    (httpSuccess r && r.statusCode.isSome) = httpSuccess r := by
  rcases r with ⟨lat, sc, te⟩
  cases sc <;> simp [httpSuccess]

lemma httpFailure_and_isSome (r : Outcome) :
    (httpFailure r && r.statusCode.isSome) = httpFailure r := by
  rcases r with ⟨lat, sc, te⟩
  cases sc <;> simp [httpFailure]

lemma beq_and_isSome (code : ℕ) (r : Outcome) :
    ((r.statusCode == some code) && r.statusCode.isSome) = (r.statusCode == some code) := by
  rcases r with ⟨lat, sc, te⟩
  cases sc <;> simp

/-! ### Structural lemmas about the per-completion fold -/

lemma processCompletion_results (t : ℕ) (b : Bool) (st : RunState) (c : Completion) :
    (processCompletion t b st c).results = st.results ++ [c.outcome] := by
  cases b <;> rfl

lemma processCompletion_completed (t : ℕ) (b : Bool) (st : RunState) (c : Completion) :
    (processCompletion t b st c).completed = st.completed + 1 := by
  cases b <;> rfl

lemma processCompletion_timeseries_false (t : ℕ) (st : RunState) (c : Completion) :
    (processCompletion t false st c).timeseries = st.timeseries := rfl

lemma processCompletion_events_false (t : ℕ) (st : RunState) (c : Completion) :
    (processCompletion t false st c).events = st.events := rfl

lemma processCompletion_events_true (t : ℕ) (st : RunState) (c : Completion) :
    (processCompletion t true st c).events = st.events ++
      [⟨st.completed + 1, t, pyRound2 (avgLatency (st.results ++ [c.outcome])),
        httpErrorsSoFar (st.results ++ [c.outcome]), c.evTime⟩] := rfl

lemma processCompletion_timeseries_append (t : ℕ) (b : Bool) (st : RunState)
    (c : Completion) :
    ∃ s, (processCompletion t b st c).timeseries = st.timeseries ++ s := by
  cases b
  · exact ⟨[], by simp [processCompletion_timeseries_false]⟩
  · show ∃ s,
      (match st.timeseries.getLast? with
        | none => st.timeseries ++ [_]
        | some lastPoint => if 1/2 ≤ c.now - lastPoint.timestamp
            then st.timeseries ++ [_] else st.timeseries) = st.timeseries ++ s
    split
    · exact ⟨_, rfl⟩
    · split
      · exact ⟨_, rfl⟩
      · exact ⟨[], (List.append_nil _).symm⟩

lemma foldl_results (t : ℕ) (b : Bool) :
    ∀ (cs : List Completion) (st : RunState),
      (cs.foldl (processCompletion t b) st).results = st.results ++ cs.map (·.outcome)
  | [], st => by simp
  | c :: cs, st => by
      rw [List.foldl_cons, foldl_results t b cs, processCompletion_results]
      simp

lemma foldl_completed (t : ℕ) (b : Bool) :
    ∀ (cs : List Completion) (st : RunState),
      (cs.foldl (processCompletion t b) st).completed = st.completed + cs.length
  | [], st => by simp
  | c :: cs, st => by
      rw [List.foldl_cons, foldl_completed t b cs, processCompletion_completed]
      simp [Nat.add_assoc, Nat.add_comm 1]

lemma foldl_timeseries_false (t : ℕ) :
    ∀ (cs : List Completion) (st : RunState),
      (cs.foldl (processCompletion t false) st).timeseries = st.timeseries
  | [], _ => rfl
  | c :: cs, st => by
      rw [List.foldl_cons, foldl_timeseries_false t cs, processCompletion_timeseries_false]

lemma foldl_timeseries_head (t : ℕ) (b : Bool) :
    ∀ (cs : List Completion) (st : RunState), st.timeseries ≠ [] →
      (cs.foldl (processCompletion t b) st).timeseries.head? = st.timeseries.head?
  | [], _, _ => rfl
  | c :: cs, st, h => by
      obtain ⟨s, hs⟩ := processCompletion_timeseries_append t b st c
      rw [List.foldl_cons, foldl_timeseries_head t b cs _ (by simp [hs, h]), hs,
        List.head?_append_of_ne_nil _ h]

lemma foldl_events (t : ℕ) :
    ∀ (cs : List Completion) (st : RunState),
      (cs.foldl (processCompletion t true) st).events
        = st.events ++ eventsSpec t st.results st.completed cs
  | [], st => by simp [eventsSpec]
  | c :: cs, st => by
      rw [List.foldl_cons, foldl_events t cs, processCompletion_events_true,
        processCompletion_results, processCompletion_completed, eventsSpec]
      simp

lemma eventsSpec_length (t : ℕ) :
    ∀ (cs : List Completion) (res0 : List Outcome) (comp0 : ℕ),
      (eventsSpec t res0 comp0 cs).length = cs.length
  | [], _, _ => rfl
  | c :: cs, res0, comp0 => by
      rw [eventsSpec, List.length_cons, eventsSpec_length t cs, List.length_cons]

lemma eventsSpec_get (t : ℕ) :
    ∀ (cs : List Completion) (res0 : List Outcome) (comp0 k : ℕ), k < cs.length →
      ∃ e, (eventsSpec t res0 comp0 cs).get? k = some e ∧
        e.completed = comp0 + k + 1 ∧ e.total = t ∧
        e.avg_latency_ms = pyRound2 (avgLatency (res0 ++ (cs.take (k+1)).map (·.outcome))) ∧
        e.errors = httpErrorsSoFar (res0 ++ (cs.take (k+1)).map (·.outcome))
  | [], _, _, k, hk => absurd hk (by simp)
  | c :: cs, res0, comp0, 0, hk => by
      refine ⟨_, rfl, rfl, rfl, ?_, ?_⟩ <;> simp [eventsSpec]
  | c :: cs, res0, comp0, k + 1, hk => by
      obtain ⟨e, hget, h1, h2, h3, h4⟩ :=
        eventsSpec_get t cs (res0 ++ [c.outcome]) (comp0 + 1) k
          (by simpa using Nat.lt_of_succ_lt_succ hk)
      refine ⟨e, ?_, ?_, h2, ?_, ?_⟩
      · rw [eventsSpec]
        simpa using hget
      · omega
      · rw [h3]
        simp [List.append_assoc]
      · rw [h4]
        simp [List.append_assoc]

lemma chain'_processCompletion (t : ℕ) (b : Bool) (st : RunState) (c : Completion)
    (h : List.Chain' (fun a b => a.timestamp + 1/2 ≤ b.timestamp) st.timeseries) :
    List.Chain' (fun a b => a.timestamp + 1/2 ≤ b.timestamp)
      (processCompletion t b st c).timeseries := by
  cases b
  · rwa [processCompletion_timeseries_false]
  · show List.Chain' _
      (match st.timeseries.getLast? with
        | none => st.timeseries ++ [_]
        | some lastPoint => if 1/2 ≤ c.now - lastPoint.timestamp
            then st.timeseries ++ [_] else st.timeseries)
    split
    · next hl =>
        have : st.timeseries = [] := by simpa using hl
        simp [this]
    · next lastPoint hl =>
        split
        · next hg =>
            rw [List.chain'_append]
            refine ⟨h, List.chain'_singleton _, ?_⟩
            intro x hx y hy
            rw [hl] at hx
            cases hx
            cases hy
            show lastPoint.timestamp + 1/2 ≤ c.now
            linarith
        · next => exact h

lemma chain'_foldl (t : ℕ) (b : Bool) :
    ∀ (cs : List Completion) (st : RunState),
      List.Chain' (fun a b => a.timestamp + 1/2 ≤ b.timestamp) st.timeseries →
      List.Chain' (fun a b => a.timestamp + 1/2 ≤ b.timestamp)
        ((cs.foldl (processCompletion t b) st).timeseries)
  | [], _, h => h
  | c :: cs, st, h => by
      rw [List.foldl_cons]
      exact chain'_foldl t b cs _ (chain'_processCompletion t b st c h)

namespace Dispatch

lemma card_filter_update {n : ℕ} (f : Fin n → Phase) (i : Fin n) (v : Phase)
    (P : Phase → Prop) [DecidablePred P] :
    (Finset.univ.filter fun j => P (Function.update f i v j)).card
        + (if P (f i) then 1 else 0)
      = (Finset.univ.filter fun j => P (f j)).card + (if P v then 1 else 0) := by
  have key : ∀ g : Fin n → Phase,
      (Finset.univ.filter fun j => P (g j)).card
        = ((Finset.univ.erase i).filter fun j => P (g j)).card
            + (if P (g i) then 1 else 0) := by
    intro g
    by_cases h : P (g i)
    · rw [if_pos h]
      have hset : Finset.univ.filter (fun j => P (g j))
          = insert i ((Finset.univ.erase i).filter fun j => P (g j)) := by
        ext j
        simp only [Finset.mem_filter, Finset.mem_insert, Finset.mem_erase,
          Finset.mem_univ, true_and, and_true]
        constructor
        · intro hj
          by_cases hij : j = i
          · exact Or.inl hij
          · exact Or.inr ⟨hij, hj⟩
        · rintro (rfl | ⟨_, hj⟩)
          · exact h
          · exact hj
      rw [hset, Finset.card_insert_of_not_mem (by simp)]
    · rw [if_neg h, add_zero]
      congr 1
      ext j
      simp only [Finset.mem_filter, Finset.mem_erase, Finset.mem_univ, true_and,
        and_comm]
      constructor
      · intro hj
        refine ⟨hj, ?_⟩
        intro hij
        exact h (hij ▸ hj)
      · exact fun hj => hj.1
  have herase : ((Finset.univ.erase i).filter fun j => P (Function.update f i v j))
      = ((Finset.univ.erase i).filter fun j => P (f j)) := by
    apply Finset.filter_congr
    intro j hj
    rw [Function.update_noteq (Finset.mem_erase.mp hj).1]
  rw [key (Function.update f i v), key f, herase, Function.update_same]
  omega

lemma tMeasure_update {n : ℕ} (f : Fin n → Phase) (i : Fin n) (v : Phase) :
    (∑ j, phaseWeight (Function.update f i v j)) + phaseWeight (f i)
      = (∑ j, phaseWeight (f j)) + phaseWeight v := by
  have h1 : (fun j => phaseWeight (Function.update f i v j))
      = Function.update (fun j => phaseWeight (f j)) i (phaseWeight v) := by
    ext j
    by_cases hij : j = i
    · subst hij
      rw [Function.update_same, Function.update_same]
    · rw [Function.update_noteq hij, Function.update_noteq hij]
  rw [h1, Finset.sum_update_of_mem (Finset.mem_univ i),
    ← Finset.add_sum_erase _ (fun j => phaseWeight (f j)) (Finset.mem_univ i),
    Finset.erase_eq]
  omega

/-- The inductive invariant of a run: free permits plus held permits equal
`concurrency`; the completed counter tracks the results list; the results
list holds exactly one outcome per worker past its append. -/
lemma run_invariant {n : ℕ} (o : Fin n → Outcome) (hasCallback : Bool)
    (concurrency : ℕ) (s : DState n)
    (hs : Reachable n o hasCallback concurrency s) :
    s.sem + holding s = concurrency ∧ s.completed = s.results.length ∧
      s.results.length = appended s := by
  induction hs with
  | refl => simp [init, holding, appended]
  | @tail s t hr hstep ih =>
      obtain ⟨ih1, ih2, ih3⟩ := ih
      cases hstep with
      | acquire i hw hsem =>
          have hh := card_filter_update s.phase i Phase.inflight
            (fun p => p = .inflight ∨ p = .awaitingCb)
          have ha := card_filter_update s.phase i Phase.inflight
            (fun p => p = .awaitingCb ∨ p = .done)
          rw [hw] at hh ha
          simp only [reduceCtorEq, or_self, if_false, or_false, false_or,
            if_true, reduceIte] at hh ha
          refine ⟨?_, by simpa using ih2, ?_⟩
          · show s.sem - 1 + holding _ = concurrency
            unfold holding at ih1 ⊢; simp only []; try simp only [Bool.false_eq_true, reduceIte, if_true, if_false, ite_true, ite_false]
            omega
          · show List.length s.results = appended _
            unfold appended at ih3 ⊢; simp only []; try simp only [Bool.false_eq_true, reduceIte, if_true, if_false, ite_true, ite_false]
            omega
      | complete i hf =>
          have hh := card_filter_update s.phase i
            (if hasCallback then Phase.awaitingCb else Phase.done)
            (fun p => p = .inflight ∨ p = .awaitingCb)
          have ha := card_filter_update s.phase i
            (if hasCallback then Phase.awaitingCb else Phase.done)
            (fun p => p = .awaitingCb ∨ p = .done)
          rw [hf] at hh ha
          cases hasCallback with
          | true =>
              simp only [if_true, reduceIte, reduceCtorEq, or_self, or_false,
                false_or, or_true, if_false] at hh ha
              refine ⟨?_, ?_, ?_⟩
              · show (if true = true then s.sem else s.sem + 1) + holding _ = concurrency
                unfold holding at ih1 ⊢; simp only []; try simp only [Bool.false_eq_true, reduceIte, if_true, if_false, ite_true, ite_false]
                try simp only [if_true, reduceIte, ite_true]
                omega
              · show s.completed + 1 = (s.results ++ [o i]).length
                simp [ih2]
              · show (s.results ++ [o i]).length = appended _
                unfold appended at ih3 ⊢; simp only []; try simp only [Bool.false_eq_true, reduceIte, if_true, if_false, ite_true, ite_false]
                simp only [List.length_append, List.length_singleton]
                omega
          | false =>
              simp only [if_false, reduceIte, reduceCtorEq, or_self, or_false,
                false_or, or_true, if_true] at hh ha
              refine ⟨?_, ?_, ?_⟩
              · show (if false = true then s.sem else s.sem + 1) + holding _ = concurrency
                unfold holding at ih1 ⊢; simp only []; try simp only [Bool.false_eq_true, reduceIte, if_true, if_false, ite_true, ite_false]
                try simp only [Bool.false_eq_true, if_false, reduceIte, ite_false]
                omega
              · show s.completed + 1 = (s.results ++ [o i]).length
                simp [ih2]
              · show (s.results ++ [o i]).length = appended _
                unfold appended at ih3 ⊢; simp only []; try simp only [Bool.false_eq_true, reduceIte, if_true, if_false, ite_true, ite_false]
                simp only [List.length_append, List.length_singleton]
                omega
      | callbackReturn i hcb hw =>
          have hh := card_filter_update s.phase i Phase.done
            (fun p => p = .inflight ∨ p = .awaitingCb)
          have ha := card_filter_update s.phase i Phase.done
            (fun p => p = .awaitingCb ∨ p = .done)
          rw [hw] at hh ha
          simp only [reduceCtorEq, or_self, if_false, or_false, false_or,
            or_true, if_true, reduceIte] at hh ha
          refine ⟨?_, by simpa using ih2, ?_⟩
          · show s.sem + 1 + holding _ = concurrency
            unfold holding at ih1 ⊢; simp only []; try simp only [Bool.false_eq_true, reduceIte, if_true, if_false, ite_true, ite_false]
            omega
          · show List.length s.results = appended _
            unfold appended at ih3 ⊢; simp only []; try simp only [Bool.false_eq_true, reduceIte, if_true, if_false, ite_true, ite_false]
            omega

/-- With no progress callback supplied, no worker is ever awaiting one. -/
lemma no_awaitingCb {n : ℕ} (o : Fin n → Outcome) (concurrency : ℕ)
    (s : DState n) (hs : Reachable n o false concurrency s) :
    ∀ i, s.phase i ≠ .awaitingCb := by
  induction hs with
  | refl => intro i; simp [init]
  | @tail s t hr hstep ih =>
      cases hstep with
      | acquire i hw hsem =>
          intro j
          by_cases hij : j = i
          · subst hij
            show Function.update s.phase j Phase.inflight j ≠ _
            rw [Function.update_same]
            simp
          · show Function.update s.phase i Phase.inflight j ≠ _
            rw [Function.update_noteq hij]
            exact ih j
      | complete i hf =>
          intro j
          by_cases hij : j = i
          · subst hij
            simp [Function.update_same]
          · simp only [Function.update_noteq hij]
            exact ih j
      | callbackReturn i hcb hw => exact absurd hcb (by simp)

end Dispatch

/-- C1: for `p ∈ [0,100]`, the source `percentile` (with its truncating
`int()` and fallible indexing) never raises and agrees with the spec's
formula (§4.3); in particular the three concrete values claimed by the
spec hold. -/
theorem percentile_matches_spec :
    (∀ (l : List ℚ) (p : ℚ), 0 ≤ p → p ≤ 100 →
      percentile l p = some (percentileSpec l p)) ∧
    percentile [10, 20, 30, 40] 50 = some 25 ∧
    percentile [10, 20, 30, 40] 0 = some 10 ∧
    percentile [10, 20, 30, 40] 100 = some 40 := by
  refine ⟨percentile_eq_spec, ?_, ?_, ?_⟩
  · norm_num [percentile, pyInt, pyGet, List.insertionSort, List.orderedInsert,
      Int.toNat, List.get?, List.cons_ne_nil]
  · norm_num [percentile, pyInt, pyGet, List.insertionSort, List.orderedInsert,
      Int.toNat, List.get?, List.cons_ne_nil]
  · norm_num [percentile, pyInt, pyGet, List.insertionSort, List.orderedInsert,
      Int.toNat, List.get?, List.cons_ne_nil]

/-- Witness for C1 at `l = [10,20,30,40]`, `p = 50`. -/
theorem percentile_matches_spec_witness :
    (0 : ℚ) ≤ 50 ∧ (50 : ℚ) ≤ 100 ∧
      percentile [10, 20, 30, 40] 50 = some (percentileSpec [10, 20, 30, 40] 50) :=
  ⟨by norm_num, by norm_num,
    percentile_matches_spec.1 [10, 20, 30, 40] 50 (by norm_num) (by norm_num)⟩

/-- C10: `percentile` is not total outside `p ∈ [0,100]`: whenever the list
has at least two elements and the rank `k = (n-1)*(p/100)` reaches `n`, the
lookup `sorted[f]` raises an uncaught `IndexError` (modelled as `none`). -/
theorem percentile_indexError (l : List ℚ) (p : ℚ) (h2 : 2 ≤ l.length)
    (hp : (l.length : ℚ) ≤ ((l.length : ℚ) - 1) * (p / 100)) :
    percentile l p = none := by
  have hl : l ≠ [] := by
    intro h
    rw [h] at h2
    simp at h2
  have hlen : (l.insertionSort (· ≤ ·)).length = l.length :=
    List.length_insertionSort _ l
  simp only [percentile, if_neg hl]
  set s := l.insertionSort (· ≤ ·) with hs
  set k : ℚ := ((s.length : ℚ) - 1) * (p / 100) with hk
  have hkn : (s.length : ℚ) ≤ k := by rw [hk, hlen]; exact_mod_cast hp
  have hk0 : 0 ≤ k := le_trans (by positivity) hkn
  rw [pyInt_of_nonneg hk0]
  have hfn : (s.length : ℤ) ≤ ⌊k⌋ := Int.le_floor.mpr (by exact_mod_cast hkn)
  have hf0 : 0 ≤ ⌊k⌋ := le_trans (by positivity) hfn
  have hfc : ⌊k⌋ ≠ min (⌊k⌋ + 1) ((s.length : ℤ) - 1) := by
    have : 2 ≤ (s.length : ℤ) := by rw [hlen]; exact_mod_cast h2
    omega
  rw [if_neg hfc, pyGet_eq_none _ _ hf0 (by omega)]
  rfl

/-- Witness for C10 at `l = [10,20]`, `p = 200`. -/
theorem percentile_indexError_witness :
    2 ≤ ([10, 20] : List ℚ).length ∧
      ((([10, 20] : List ℚ).length : ℚ) ≤
        ((([10, 20] : List ℚ).length : ℚ) - 1) * ((200 : ℚ) / 100)) ∧
      percentile [10, 20] 200 = none :=
  ⟨by norm_num, by norm_num,
    percentile_indexError [10, 20] 200 (by norm_num) (by norm_num)⟩

/-- C3: the summary counts successes (`statusCode` present and `< 400`),
counts failures as HTTP failures plus transport errors, computes the
latency statistics and percentiles over the latencies of all outcomes
(transport errors included), computes the rate only for positive
duration, and builds the status histogram from HTTP-bearing outcomes
only; Scenario C comes out as the spec claims. -/
theorem aggregate_correct :
    (∀ (results : List Outcome) (t : ℚ),
      (aggregate results t).successful_requests = results.countP httpSuccess ∧
      (aggregate results t).failed_requests
        = results.countP httpFailure + results.countP (·.transportError) ∧
      (aggregate results t).transport_errors = results.countP (·.transportError) ∧
      (results ≠ [] →
        (aggregate results t).latency_avg * (results.length : ℚ)
          = (results.map (·.latencyMs)).sum) ∧
      (results ≠ [] →
        (aggregate results t).latency_min ∈ results.map (·.latencyMs) ∧
        ∀ x ∈ results.map (·.latencyMs), (aggregate results t).latency_min ≤ x) ∧
      (results ≠ [] →
        (aggregate results t).latency_max ∈ results.map (·.latencyMs) ∧
        ∀ x ∈ results.map (·.latencyMs), x ≤ (aggregate results t).latency_max) ∧
      (aggregate results t).p50 = some (percentileSpec (results.map (·.latencyMs)) 50) ∧
      (aggregate results t).p90 = some (percentileSpec (results.map (·.latencyMs)) 90) ∧
      (aggregate results t).p95 = some (percentileSpec (results.map (·.latencyMs)) 95) ∧
      (aggregate results t).p99 = some (percentileSpec (results.map (·.latencyMs)) 99) ∧
      (0 < t → (aggregate results t).requests_per_second = (results.length : ℚ) / t) ∧
      (¬ 0 < t → (aggregate results t).requests_per_second = 0) ∧
      (∀ code, (aggregate results t).status_codes code
        = results.countP (fun r => r.statusCode == some code))) ∧
    ((aggregate scenarioC 1).successful_requests = 5 ∧
      (aggregate scenarioC 1).failed_requests = 5 ∧
      (aggregate scenarioC 1).transport_errors = 2 ∧
      (aggregate scenarioC 1).status_codes 200 = 5 ∧
      (aggregate scenarioC 1).status_codes 500 = 3 ∧
      ∀ code, code ≠ 200 → code ≠ 500 → (aggregate scenarioC 1).status_codes code = 0) := by
  constructor
  · intro results t
    refine ⟨?_, ?_, ?_, ?_, ?_, ?_, ?_, ?_, ?_, ?_, ?_, ?_, ?_⟩
    · show ((results.filter (fun r => r.statusCode.isSome)).filter httpSuccess).length = _
      rw [List.filter_filter, ← List.countP_eq_length_filter]
      exact List.countP_congr fun r _ => by rw [httpSuccess_and_isSome]
    · show ((results.filter _).filter httpFailure).length + (results.filter _).length = _
      rw [List.filter_filter, ← List.countP_eq_length_filter, ← List.countP_eq_length_filter]
      congr 1
      exact List.countP_congr fun r _ => by rw [httpFailure_and_isSome]
    · exact (List.countP_eq_length_filter _ _).symm
    · intro h
      have hm : results.map (·.latencyMs) ≠ [] := by
        simpa using h
      show (if results.map (·.latencyMs) = [] then (0:ℚ) else _) * _ = _
      rw [if_neg hm]
      have hlen : (results.length : ℚ) ≠ 0 := by
        exact_mod_cast Nat.pos_iff_ne_zero.mp (List.length_pos.mpr h)
      rw [List.length_map]
      field_simp
    · intro h
      have hm : results.map (·.latencyMs) ≠ [] := by simpa using h
      obtain ⟨m, hmin⟩ := min?_of_ne_nil hm
      have hagg : (aggregate results t).latency_min = m := by
        show (results.map (·.latencyMs)).min?.getD 0 = m
        rw [hmin]
        rfl
      rw [hagg]
      exact min?_spec hmin
    · intro h
      have hm : results.map (·.latencyMs) ≠ [] := by simpa using h
      obtain ⟨m, hmax⟩ := max?_of_ne_nil hm
      have hagg : (aggregate results t).latency_max = m := by
        show (results.map (·.latencyMs)).max?.getD 0 = m
        rw [hmax]
        rfl
      rw [hagg]
      exact max?_spec hmax
    · exact percentile_eq_spec _ 50 (by norm_num) (by norm_num)
    · exact percentile_eq_spec _ 90 (by norm_num) (by norm_num)
    · exact percentile_eq_spec _ 95 (by norm_num) (by norm_num)
    · exact percentile_eq_spec _ 99 (by norm_num) (by norm_num)
    · intro ht
      show (if 0 < t then _ else _) = _
      rw [if_pos ht]
    · intro ht
      show (if 0 < t then _ else _) = _
      rw [if_neg ht]
    · intro code
      show (results.filter (fun r => r.statusCode.isSome)).countP _ = _
      rw [List.countP_filter]
      exact List.countP_congr fun r _ => by rw [beq_and_isSome]
  · refine ⟨by decide, by decide, by decide, by decide, by decide, ?_⟩
    intro code h1 h2
    show (scenarioC.filter (fun r => r.statusCode.isSome)).countP
        (fun r => r.statusCode == some code) = 0
    simp [scenarioC, List.replicate, List.countP_cons, List.filter]
    exact ⟨fun h => h2 h.symm, fun h => h1 h.symm⟩

/-- Witness for C3: the general part applied at Scenario C with `t = 2`. -/
theorem aggregate_correct_witness :
    scenarioC ≠ [] ∧ (0 : ℚ) < 2 ∧
      (aggregate scenarioC 2).successful_requests = scenarioC.countP httpSuccess ∧
      (aggregate scenarioC 2).requests_per_second = (scenarioC.length : ℚ) / 2 :=
  ⟨by decide, by norm_num, (aggregate_correct.1 scenarioC 2).1,
    ((aggregate_correct.1 scenarioC 2).2.2.2.2.2.2.2.2.2.2.1 (by norm_num))⟩

/-! ### C4 -/

/-- Counterexample to C4: a configuration whose method is outside the
allowed set is not rejected — `run_load_test` dispatches it anyway, the
injected transport is invoked and its outcome is recorded (1 outcome, not
0, and a successful one at that). -/
theorem invalid_method_still_dispatches :
    (run_load_test methodFrob urlDemo 1 1 false transportDemo 1).summary.total_requests = 1 ∧
    (run_load_test methodFrob urlDemo 1 1 false transportDemo 1).summary.successful_requests
      = 1 := by
  constructor <;> rfl

/-- C4 amended: `run_load_test` performs no configuration validation at
all — for every configuration, valid or not (any method string, any URL
string, any counts), it dispatches exactly `total_requests` requests and
aggregates their outcomes; rejection of invalid configurations happens
only in the out-of-scope REST layer. -/
theorem run_load_test_never_validates (method url : String)
    (total_requests concurrency : ℕ) (hasCallback : Bool)
    (transport : ℕ → String → String → Completion) (total_time : ℚ)
    (hc : 1 ≤ concurrency) :
    (run_load_test method url total_requests concurrency hasCallback transport
        total_time).summary.total_requests = total_requests := by
  show ((runFold total_requests hasCallback _).results).length = total_requests
  rw [runFold, foldl_results]
  simp [initialRunState]

/-- Witness for C4's amended theorem at the disallowed-method input. -/
theorem run_load_test_never_validates_witness :
    1 ≤ 1 ∧
      (run_load_test methodFrob urlDemo 3 1 false transportDemo 1).summary.total_requests
        = 3 :=
  ⟨le_refl 1,
    run_load_test_never_validates methodFrob urlDemo 3 1 false transportDemo 1 (le_refl 1)⟩

/-! ### C5 -/

/-- C5 (the code as it is): with two requests and a progress callback
whose first invocation raises, `run_load_test` raises (`.error`) instead
of returning a `LoadTestResult` — the exception is not caught anywhere
between the callback and `asyncio.gather`. -/
theorem callback_exception_aborts_run :
    run_load_test_raising 2 (fun k => k == 0) completionsDemo 1 = .error () := rfl

/-! ### C6 -/

/-- Counterexample to C6: with no progress callback supplied, a completed
request does not invoke the sampler — after one completion the timeseries
buffer is still empty, although the claim promises a first point at the
first completion regardless. -/
theorem sampler_not_invoked_without_callback :
    (runFold 1 false [⟨⟨5, some 200, false⟩, 0, 0⟩]).completed = 1 ∧
    (runFold 1 false [⟨⟨5, some 200, false⟩, 0, 0⟩]).timeseries = [] := by decide

/-- C6 amended: the sampler decision rule runs only when a progress
callback is supplied.  Without one the timeseries stays empty forever;
with one, the first completion always records the first point (buffer
empty, so the rule fires regardless of elapsed time), carrying that
completion's wall-clock `now`, count 1 and the statistics of the single
outcome. -/
theorem sampler_invoked_only_with_callback (total_requests : ℕ) :
    (∀ cs : List Completion, (runFold total_requests false cs).timeseries = []) ∧
    (∀ (c : Completion) (cs : List Completion),
      (runFold total_requests true (c :: cs)).timeseries.head?
        = some ⟨c.now, 1, pyRound2 (avgLatency [c.outcome]),
            httpErrorsSoFar [c.outcome]⟩) := by
  constructor
  · intro cs
    rw [runFold, foldl_timeseries_false]
    rfl
  · intro c cs
    rw [runFold, List.foldl_cons, foldl_timeseries_head _ _ cs _ (by exact (by simp : ([] : List TimeseriesPoint) ++ [_] ≠ []))]
    rfl

/-! ### C7 -/

/-- C7: in every returned timeseries, each consecutive pair of points is
at least 0.5 seconds apart: a point is appended only when the buffer is
empty or `now - lastPoint.timestamp ≥ 0.5`, and it carries that `now` as
its own timestamp. -/
theorem timeseries_half_second_spacing (total_requests : ℕ) (hasCallback : Bool)
    (cs : List Completion) :
    List.Chain' (fun a b => a.timestamp + 1/2 ≤ b.timestamp)
      ((runFold total_requests hasCallback cs).timeseries) :=
  chain'_foldl total_requests hasCallback cs initialRunState (by simp [initialRunState])

/-! ### C8 -/

/-- Counterexample to C8: the claim says each event's `avgLatencyMs`
equals the running average latency; but the source emits
`round(avg_latency, 2)`, so a single outcome of 1.239 ms produces an
event carrying 1.24, not 1.239. -/
theorem progress_event_avg_is_rounded :
    ((runFold 1 true [⟨⟨1239/1000, some 200, false⟩, 0, 0⟩]).events.map
        (fun e => e.avg_latency_ms)) = [31/25] ∧
    avgLatency [⟨1239/1000, some 200, false⟩] = 1239/1000 ∧
    (31/25 : ℚ) ≠ 1239/1000 := by
  refine ⟨?_, ?_, by norm_num⟩
  · norm_num [runFold, processCompletion, initialRunState, avgLatency,
      httpErrorsSoFar, pyRound2]
  · norm_num [avgLatency]

/-- C8 amended: when a callback is supplied, exactly one event is emitted
per completed request (no throttling), and the `k`-th event carries
`completed = k+1` (the number of outcomes recorded so far), the
configured total, the running average latency over the outcomes so far
rounded to two decimals, and the count of outcomes so far whose status
code is present and `≥ 400` (transport errors excluded). -/
theorem progress_events_characterization (total_requests : ℕ) (cs : List Completion) :
    (runFold total_requests true cs).events.length = cs.length ∧
    ∀ k, k < cs.length →
      ∃ e, (runFold total_requests true cs).events.get? k = some e ∧
        e.completed = k + 1 ∧ e.total = total_requests ∧
        e.avg_latency_ms
          = pyRound2 (avgLatency ((cs.take (k+1)).map (·.outcome))) ∧
        e.errors = httpErrorsSoFar ((cs.take (k+1)).map (·.outcome)) := by
  have hev : (runFold total_requests true cs).events
      = eventsSpec total_requests [] 0 cs := by
    rw [runFold, foldl_events]
    rfl
  constructor
  · rw [hev, eventsSpec_length]
  · intro k hk
    obtain ⟨e, hget, h1, h2, h3, h4⟩ := eventsSpec_get total_requests cs [] 0 k hk
    refine ⟨e, by rw [hev]; exact hget, by omega, h2, by simpa using h3, by simpa using h4⟩

/-- Witness for C8's amended theorem at a concrete two-completion run. -/
theorem progress_events_characterization_witness :
    0 < completionsDemo.length ∧
      ∃ e, (runFold 2 true completionsDemo).events.get? 0 = some e ∧
        e.completed = 0 + 1 ∧ e.total = 2 ∧
        e.avg_latency_ms
          = pyRound2 (avgLatency ((completionsDemo.take 1).map (·.outcome))) ∧
        e.errors = httpErrorsSoFar ((completionsDemo.take 1).map (·.outcome)) :=
  ⟨by decide, (progress_events_characterization 2 completionsDemo).2 0 (by decide)⟩

namespace Dispatch

/-- C9: at no instant are more transport calls in flight than
`concurrency` — in every reachable state, the workers holding a permit
(hence a fortiori those inside the timed transport call) number at most
`concurrency`; the permit pool is the sole throttle. -/
theorem concurrency_bound {n : ℕ} (o : Fin n → Outcome) (hasCallback : Bool)
    (concurrency : ℕ) (s : DState n)
    (hs : Reachable n o hasCallback concurrency s) :
    inflight s ≤ concurrency := by
  have h := (run_invariant o hasCallback concurrency s hs).1
  have hsub : inflight s ≤ holding s := by
    apply Finset.card_le_card
    intro i hi
    simp only [Finset.mem_filter, Finset.mem_univ, true_and] at hi ⊢
    exact Or.inl hi
  omega

/-- Witness for C9 at `n = 1`, `concurrency = 1`, at the initial state. -/
theorem concurrency_bound_witness :
    Reachable 1 (fun _ => ⟨5, some 200, false⟩) false 1 (init 1 1) ∧
      inflight (init 1 1) ≤ 1 :=
  ⟨Relation.ReflTransGen.refl,
    concurrency_bound (fun _ => ⟨5, some 200, false⟩) false 1 (init 1 1)
      Relation.ReflTransGen.refl⟩

/-- C2: with `concurrency ≥ 1`, from every reachable state the run can
only halt when every worker is done (no transport outcome — success, 4xx,
5xx, timeout or connection failure — can wedge or abort it), every step
strictly decreases the termination measure (so the run cannot go on
forever), and in the all-done state the completed counter and the outcome
collection both equal `totalRequests` exactly: one outcome per request,
no retries. -/
theorem run_to_completion {n : ℕ} (o : Fin n → Outcome) (hasCallback : Bool)
    (concurrency : ℕ) (hn : 1 ≤ n) (hc : 1 ≤ concurrency) (s : DState n)
    (hs : Reachable n o hasCallback concurrency s) :
    ((¬ ∃ u, Step n o hasCallback s u) ↔ ∀ i, s.phase i = .done) ∧
    ((∀ i, s.phase i = .done) → s.completed = n ∧ s.results.length = n) ∧
    (∀ u, Step n o hasCallback s u → tMeasure u < tMeasure s) := by
  obtain ⟨hinv1, hinv2, hinv3⟩ := run_invariant o hasCallback concurrency s hs
  refine ⟨⟨?_, ?_⟩, ?_, ?_⟩
  · intro hstuck i
    by_contra hnd
    apply hstuck
    have hawait : ∀ j, s.phase j = .awaitingCb → ∃ u, Step n o hasCallback s u := by
      intro j hj
      cases hcb : hasCallback with
      | true => exact ⟨_, Step.callbackReturn s j rfl hj⟩
      | false =>
          subst hcb
          exact absurd hj (no_awaitingCb o concurrency s hs j)
    cases hp : s.phase i with
    | waiting =>
        refine ⟨_, Step.acquire s i hp ?_⟩
        by_contra hsem
        have hzero : s.sem = 0 := by omega
        have hpos : 0 < (Finset.univ.filter
            fun j => s.phase j = Phase.inflight ∨ s.phase j = Phase.awaitingCb).card := by
          have h1 := hinv1
          unfold holding at h1
          omega
        obtain ⟨j, hj⟩ := Finset.card_pos.mp hpos
        rw [Finset.mem_filter] at hj
        cases hj.2 with
        | inl hj2 => exact hstuck ⟨_, Step.complete s j hj2⟩
        | inr hj2 => exact hstuck (hawait j hj2)
    | inflight => exact ⟨_, Step.complete s i hp⟩
    | awaitingCb => exact hawait i hp
    | done => exact absurd hp hnd
  · intro hdone
    rintro ⟨u, hstep⟩
    cases hstep with
    | acquire i hw _ => rw [hdone i] at hw; exact absurd hw (by simp)
    | complete i hf => rw [hdone i] at hf; exact absurd hf (by simp)
    | callbackReturn i _ hw => rw [hdone i] at hw; exact absurd hw (by simp)
  · intro hdone
    have happ : appended s = n := by
      unfold appended
      have : Finset.univ.filter
          (fun i => s.phase i = Phase.awaitingCb ∨ s.phase i = Phase.done)
          = Finset.univ := by
        apply Finset.filter_true_of_mem
        intro i _
        exact Or.inr (hdone i)
      rw [this, Finset.card_univ, Fintype.card_fin]
    exact ⟨by omega, by omega⟩
  · intro u hstep
    cases hstep with
    | acquire i hw _ =>
        have := tMeasure_update s.phase i Phase.inflight
        rw [hw] at this
        unfold tMeasure
        simp only [phaseWeight] at this ⊢
        omega
    | complete i hf =>
        have := tMeasure_update s.phase i
          (if hasCallback then Phase.awaitingCb else Phase.done)
        rw [hf] at this
        unfold tMeasure
        cases hasCallback <;> simp only [Bool.false_eq_true, if_true, if_false,
          reduceIte, ite_true, ite_false, phaseWeight] at this ⊢ <;> omega
    | callbackReturn i _ hw =>
        have := tMeasure_update s.phase i Phase.done
        rw [hw] at this
        unfold tMeasure
        simp only [phaseWeight] at this ⊢
        omega

/-- Witness for C2 at `n = 1`, `concurrency = 1`, at the initial state. -/
theorem run_to_completion_witness :
    1 ≤ 1 ∧ 1 ≤ 1 ∧ Reachable 1 outcomeDemo false 1 (init 1 1) ∧
      (((¬ ∃ u, Step 1 outcomeDemo false (init 1 1) u) ↔
          ∀ i, (init 1 1).phase i = Phase.done) ∧
        ((∀ i, (init 1 1).phase i = Phase.done) →
          (init 1 1).completed = 1 ∧ (init 1 1).results.length = 1) ∧
        (∀ u, Step 1 outcomeDemo false (init 1 1) u →
          tMeasure u < tMeasure (init 1 1))) :=
  ⟨le_refl 1, le_refl 1, Relation.ReflTransGen.refl,
    run_to_completion outcomeDemo false 1 (le_refl 1) (le_refl 1) (init 1 1)
      Relation.ReflTransGen.refl⟩

end Dispatch

end LoadTest
